import Mathlib

/-!
Verification of the convo-viewer conversation reconciliation and filtering core.

The definitions below are a shallow embedding of the TypeScript source:
* `normalizeContent`, `toolUsesMissingResults`, `existingSummaryIds`,
  `existingTruncationIds`, `hiddenCount`, `filteredMessages` embed the
  conversation-view component;
* `reconcile` embeds the task-list polling updater of the app component;
* `convPollTick`, `tasksPollTick`, `applyEvent` embed the polling effects and
  the user-initiated conversation load as a step function on the client state.

JavaScript optional string fields are embedded as `Option String`; the
JavaScript truthiness test on such a field (which treats both `undefined` and
the empty string as false) is embedded by `jsTruthy`.
-/

/-- One typed content block of a message (the `ContentBlock` interface). The
`input` payload is opaque to every operation modelled here and is embedded as
an optional string. -/
structure ContentBlock where
  type : String
  text : Option String := none
  id : Option String := none
  name : Option String := none
  input : Option String := none
  tool_use_id : Option String := none
  content : Option String := none
  is_error : Option Bool := none
  summary : Option (List String) := none
deriving DecidableEq, Repr

/-- The `content` field of a message: a string, an array of blocks, or any
other JavaScript value.  `other s` stands for a non-string non-array value
whose JavaScript stringification `String(v)` is `s`. -/
inductive MsgContent where
  | str (s : String)
  | blocks (bs : List ContentBlock)
  | other (stringified : String)
deriving DecidableEq, Repr

/-- One conversation message (the `Message` interface).  The optional boolean
flags are embedded as `Bool` with default `false` (JavaScript truthiness of a
missing field). -/
structure Message where
  role : String
  content : MsgContent
  ts : Int
  isSummary : Bool := false
  condenseId : Option String := none
  condenseParent : Option String := none
  isTruncationMarker : Bool := false
  truncationId : Option String := none
  truncationParent : Option String := none
deriving DecidableEq, Repr

/-- One task-list entry (the `Task` interface of the client, `TaskInfo` of the
server). -/
structure TaskInfo where
  id : String
  timestamp : Int
  firstMessage : String
deriving DecidableEq, Repr

/-- JavaScript truthiness of an optional string field: `undefined` and `""`
are both falsy; a truthy field yields its value. -/
def jsTruthy : Option String → Option String
  | none => none
  | some s => if s = "" then none else some s

/-- `normalizeContent` of the conversation-view component: a string is wrapped
as a single text block; an array is returned unchanged; any other value is
stringified and wrapped as a single text block. -/
def normalizeContent : MsgContent → List ContentBlock
  | .str s => [{ type := "text", text := some s }]
  | .blocks bs => bs
  | .other s => [{ type := "text", text := some s }]

/-! ### Tool pairing (`toolUsesMissingResults`) -/

/-- Accumulator of the scan in `toolUsesMissingResults`: the set of
`tool_use_id` values seen on `tool_result` blocks, and the map from `tool_use`
block ids to their (messageIndex, blockIndex) position. -/
structure ScanAcc where
  toolResultIds : List String
  toolUsePositions : List (String × Nat × Nat)
deriving DecidableEq, Repr

/-- JavaScript `Set.add`: insert if not already present. -/
def addResultId (ids : List String) (t : String) : List String :=
  if ids.contains t then ids else ids ++ [t]

/-- JavaScript `Map.set`: overwrite the value of an existing key in place, or
append a new key (last write wins). -/
def setPosition (ps : List (String × Nat × Nat)) (tid : String) (v : Nat × Nat) :
    List (String × Nat × Nat) :=
  match ps with
  | [] => [(tid, v)]
  | (k, w) :: rest => if k = tid then (k, v) :: rest else (k, w) :: setPosition rest tid v

/-- JavaScript `Map.get` (restricted to the positions map). -/
def lookupPos (ps : List (String × Nat × Nat)) (tid : String) : Option (Nat × Nat) :=
  match ps with
  | [] => none
  | (k, v) :: rest => if k = tid then some v else lookupPos rest tid

/-- Processing of one block in the first pass of `toolUsesMissingResults`:
a `tool_result` block with a truthy `tool_use_id` records that id as answered;
a `tool_use` block with a truthy `id` records its position. -/
def scanBlock (mi bi : Nat) (acc : ScanAcc) (block : ContentBlock) : ScanAcc :=
  let acc1 :=
    match jsTruthy block.tool_use_id with
    | some t =>
        if block.type = "tool_result" then
          { acc with toolResultIds := addResultId acc.toolResultIds t }
        else acc
    | none => acc
  match jsTruthy block.id with
  | some t =>
      if block.type = "tool_use" then
        { acc1 with toolUsePositions := setPosition acc1.toolUsePositions t (mi, bi) }
      else acc1
  | none => acc1

/-- `forEach` over the blocks of one message, carrying the block index. -/
def scanBlocks (mi : Nat) : Nat → ScanAcc → List ContentBlock → ScanAcc
  | _, acc, [] => acc
  | bi, acc, b :: rest => scanBlocks mi (bi + 1) (scanBlock mi bi acc b) rest

/-- `forEach` over the messages, carrying the message index; each message's
content is run through `normalizeContent` first. -/
def scanMessages : Nat → ScanAcc → List Message → ScanAcc
  | _, acc, [] => acc
  | mi, acc, m :: rest =>
      scanMessages (mi + 1) (scanBlocks mi 0 acc (normalizeContent m.content)) rest

/-- `toolUsesMissingResults` of the conversation-view component: the set of
tool-use ids with no matching tool result anywhere whose (last-tracked)
containing message is not the last message of the conversation. -/
def toolUsesMissingResults (msgs : List Message) : List String :=
  let acc := scanMessages 0 { toolResultIds := [], toolUsePositions := [] } msgs
  let lastMessageIndex := msgs.length - 1
  (acc.toolUsePositions.filter
    (fun p => !acc.toolResultIds.contains p.1 && decide (p.2.1 < lastMessageIndex))).map
    (fun p => p.1)

/-- A block is a `tool_use` block carrying (truthily) the id `tid`. -/
def isToolUseFor (tid : String) (b : ContentBlock) : Bool :=
  b.type = "tool_use" && (jsTruthy b.id == some tid)

/-- A block is a `tool_result` block carrying (truthily) `tid` as
`tool_use_id`. -/
def isToolResultFor (tid : String) (b : ContentBlock) : Bool :=
  b.type = "tool_result" && (jsTruthy b.tool_use_id == some tid)

/-- The message contains a `tool_use` block for `tid`. -/
def msgHasToolUse (tid : String) (m : Message) : Bool :=
  (normalizeContent m.content).any (isToolUseFor tid)

/-- The message contains a `tool_result` block answering `tid`. -/
def msgHasToolResult (tid : String) (m : Message) : Bool :=
  (normalizeContent m.content).any (isToolResultFor tid)

/-- Index of the last message of the list containing a `tool_use` block for
`tid` (the occurrence tracked by the last-write-wins position map). -/
def lastToolUseMsgIdx (tid : String) : List Message → Option Nat
  | [] => none
  | m :: rest =>
      match lastToolUseMsgIdx tid rest with
      | some i => some (i + 1)
      | none => if msgHasToolUse tid m then some 0 else none

/-! ### Condensation reachability -/

/-- `existingSummaryIds`: the `condenseId`s of the summary markers actually
present in the conversation (messages with a truthy `isSummary` and a truthy
`condenseId`). -/
def existingSummaryIds (msgs : List Message) : List String :=
  (msgs.filter (fun m => m.isSummary && (jsTruthy m.condenseId).isSome)).filterMap
    (fun m => jsTruthy m.condenseId)

/-- `existingTruncationIds`: the `truncationId`s of the truncation markers
actually present in the conversation. -/
def existingTruncationIds (msgs : List Message) : List String :=
  (msgs.filter (fun m => m.isTruncationMarker && (jsTruthy m.truncationId).isSome)).filterMap
    (fun m => jsTruthy m.truncationId)

/-- The superseded test used (inline, twice) by the component: the message
carries a truthy `condenseParent` contained in `existingSummaryIds`, or a
truthy `truncationParent` contained in `existingTruncationIds`. -/
def supersededCode (msgs : List Message) (m : Message) : Bool :=
  (match jsTruthy m.condenseParent with
   | some p => (existingSummaryIds msgs).contains p
   | none => false) ||
  (match jsTruthy m.truncationParent with
   | some p => (existingTruncationIds msgs).contains p
   | none => false)

/-- `hiddenCount`: the number of superseded messages of the full
(unfiltered) sequence. -/
def hiddenCount (msgs : List Message) : Nat :=
  (msgs.filter (fun m => supersededCode msgs m)).length

/-- `filteredMessages`: the unfiltered sequence when the toggle is off, the
non-superseded messages when it is on. -/
def filteredMessages (filterCondensed : Bool) (msgs : List Message) : List Message :=
  if !filterCondensed then msgs
  else msgs.filter (fun m => !supersededCode msgs m)

/-- The spec's wording of supersededness: the message carries a
`condenseParent` naming the `condenseId` carried by some `isSummary` message
of the sequence, or a `truncationParent` naming the `truncationId` carried by
some `isTruncationMarker` message of the sequence (single hop; "carries" is
the JavaScript truthy presence test). -/
def supersededSpec (msgs : List Message) (m : Message) : Bool :=
  (match jsTruthy m.condenseParent with
   | some p => msgs.any (fun s => s.isSummary && (jsTruthy s.condenseId == some p))
   | none => false) ||
  (match jsTruthy m.truncationParent with
   | some p => msgs.any (fun s => s.isTruncationMarker && (jsTruthy s.truncationId == some p))
   | none => false)

/-! ### Task-list reconciliation -/

/-- The comparator `(a, b) => b.timestamp - a.timestamp` passed to the
(stable) JavaScript `Array.sort`: stable descending sort by timestamp,
embedded as a stable insertion sort. -/
def sortTasksDesc (l : List TaskInfo) : List TaskInfo :=
  l.insertionSort (fun a b => b.timestamp ≤ a.timestamp)

/-- The per-task update of the no-new-tasks branch: replace the timestamp by
the value of the matching incoming task when one exists, leave the task
unchanged otherwise. -/
def updateFromIncoming (incoming : List TaskInfo) (prevTask : TaskInfo) : TaskInfo :=
  match incoming.find? (fun t => t.id == prevTask.id) with
  | some updated => { prevTask with timestamp := updated.timestamp }
  | none => prevTask

/-- The `setTasks` updater of the task-list polling effect: merge the polled
list `data` into the held list `prevTasks`. -/
def reconcile (prevTasks data : List TaskInfo) : List TaskInfo :=
  let existingIds := prevTasks.map (fun t => t.id)
  let newTasks := data.filter (fun t => !existingIds.contains t.id)
  if newTasks.isEmpty then
    sortTasksDesc (prevTasks.map (updateFromIncoming data))
  else
    sortTasksDesc (newTasks ++ prevTasks)

/-! ### Polling state machine -/

/-- Outcome of one `fetch` (plus `res.json()`): a parsed success body, a
non-success HTTP status (`!res.ok`), or a thrown error caught by the
surrounding `try`. -/
inductive FetchResult (α : Type) where
  | ok (body : α)
  | httpError
  | netError
deriving DecidableEq, Repr

/-- The client state touched by the polling effects and `loadConversation`. -/
structure AppState where
  selectedTask : Option String := none
  conversation : Option (List Message) := none
  loadingConversation : Bool := false
  errorMsg : Option String := none
  tasks : List TaskInfo := []
deriving DecidableEq, Repr

/-- One tick of the conversation polling effect: on success the held
conversation is replaced wholesale; on `!res.ok` the handler returns early;
a thrown error is silently ignored. -/
def convPollTick (s : AppState) (r : FetchResult (List Message)) : AppState :=
  match r with
  | .ok body => { s with conversation := some body }
  | .httpError => s
  | .netError => s

/-- One tick of the task-list polling effect: on success the held list is
merged via `reconcile`; failures are ignored exactly as in `convPollTick`. -/
def tasksPollTick (s : AppState) (r : FetchResult (List TaskInfo)) : AppState :=
  match r with
  | .ok body => { s with tasks := reconcile s.tasks body }
  | .httpError => s
  | .netError => s

/-- Externally observable events of the conversation-selection lifecycle.
`selectTask` is the synchronous prefix of `loadConversation` (guarded by
`loadingConversation`); `userLoadArrives` is the continuation of
`loadConversation` when its fetch settles; `pollArrives` is the continuation
of a conversation-poll tick whose fetch was issued for the given task id. -/
inductive UiEvent where
  | selectTask (t : String)
  | userLoadArrives (t : String) (r : FetchResult (List Message))
  | pollArrives (t : String) (r : FetchResult (List Message))
deriving DecidableEq, Repr

/-- Step function of the client, read off the source handlers.  Note that the
source applies an arriving conversation body unconditionally — neither
`loadConversation` nor the poll tick compares the response's task against the
current selection (the comment above `setConversation(data)` in
`loadConversation` claims such a check, but no check is present). -/
def applyEvent (s : AppState) : UiEvent → AppState
  | .selectTask t =>
      if s.loadingConversation then s
      else { s with loadingConversation := true, errorMsg := none,
                    selectedTask := some t, conversation := none }
  | .userLoadArrives _ r =>
      match r with
      | .ok body => { s with conversation := some body, loadingConversation := false }
      | .httpError =>
          { s with errorMsg := some "Conversation not found. The task may have been deleted.",
                   selectedTask := none, loadingConversation := false }
      | .netError =>
          { s with errorMsg := some "Failed to load conversation",
                   selectedTask := none, loadingConversation := false }
  | .pollArrives _ r => convPollTick s r

/-- Run a trace of events from a state. -/
def runEvents (s : AppState) (es : List UiEvent) : AppState :=
  es.foldl applyEvent s

/-! ### Concrete instances used by examples, counterexamples and witnesses -/

/-- Message `A` of the spec's condensation example. -/
def exMsgA : Message := { role := "user", content := .str "a", ts := 1 }

/-- Message `B(condenseParent=S1)` of the spec's condensation example. -/
def exMsgB : Message :=
  { role := "assistant", content := .str "b", ts := 2, condenseParent := some "S1" }

/-- Marker `S1(isSummary, condenseId=S1)` of the spec's condensation example. -/
def exMsgS1 : Message :=
  { role := "assistant", content := .str "sum", ts := 3, isSummary := true,
    condenseId := some "S1" }

/-- A summary marker carrying id `S1`, referenced by `markerS2`. -/
def markerS1 : Message :=
  { role := "assistant", content := .str "s1", ts := 2, isSummary := true,
    condenseId := some "S1" }

/-- A summary marker that is itself superseded: it carries `condenseParent`
naming the present marker id `S1`. -/
def markerS2 : Message :=
  { role := "assistant", content := .str "s2", ts := 1, isSummary := true,
    condenseId := some "S2", condenseParent := some "S1" }

/-- Conversation body returned by the stale fetch for task `X`. -/
def staleBodyX : List Message := []

/-- Conversation body returned by the fetch for the newly selected task `Y`. -/
def staleBodyY : List Message := [exMsgA]

/-- Select `X`, its load settles, switch to `Y`, `Y`'s load settles. -/
def staleTracePrefix : List UiEvent :=
  [.selectTask "X", .userLoadArrives "X" (.ok staleBodyX),
   .selectTask "Y", .userLoadArrives "Y" (.ok staleBodyY)]

/-- The same trace followed by the arrival of a conversation-poll response
whose fetch was issued for `X` before the switch. -/
def staleTrace : List UiEvent :=
  staleTracePrefix ++ [.pollArrives "X" (.ok staleBodyX)]

/-! ### Condensation lemmas -/

/-- Membership in the present summary-id set. -/
theorem mem_existingSummaryIds {msgs : List Message} {p : String} :
    p ∈ existingSummaryIds msgs ↔
      ∃ s ∈ msgs, s.isSummary = true ∧ jsTruthy s.condenseId = some p := by
  simp only [existingSummaryIds, List.mem_filterMap, List.mem_filter, Bool.and_eq_true,
    Option.isSome_iff_exists]
  constructor
  · rintro ⟨a, ⟨ha, hs, _⟩, hid⟩
    exact ⟨a, ha, hs, hid⟩
  · rintro ⟨a, ha, hs, hid⟩
    exact ⟨a, ⟨ha, hs, ⟨p, hid⟩⟩, hid⟩

/-- Membership in the present truncation-id set. -/
theorem mem_existingTruncationIds {msgs : List Message} {p : String} :
    p ∈ existingTruncationIds msgs ↔
      ∃ s ∈ msgs, s.isTruncationMarker = true ∧ jsTruthy s.truncationId = some p := by
  simp only [existingTruncationIds, List.mem_filterMap, List.mem_filter, Bool.and_eq_true,
    Option.isSome_iff_exists]
  constructor
  · rintro ⟨a, ⟨ha, hs, _⟩, hid⟩
    exact ⟨a, ha, hs, hid⟩
  · rintro ⟨a, ha, hs, hid⟩
    exact ⟨a, ⟨ha, hs, ⟨p, hid⟩⟩, hid⟩

/-- `contains` on the present summary-id set, as an `any` over the messages. -/
theorem contains_existingSummaryIds (msgs : List Message) (p : String) :
    (existingSummaryIds msgs).contains p =
      msgs.any (fun s => s.isSummary && (jsTruthy s.condenseId == some p)) := by
  rw [Bool.eq_iff_iff]
  simp only [List.contains, List.elem_iff, mem_existingSummaryIds, List.any_eq_true,
    Bool.and_eq_true, beq_iff_eq]

/-- `contains` on the present truncation-id set, as an `any`. -/
theorem contains_existingTruncationIds (msgs : List Message) (p : String) :
    (existingTruncationIds msgs).contains p =
      msgs.any (fun s => s.isTruncationMarker && (jsTruthy s.truncationId == some p)) := by
  rw [Bool.eq_iff_iff]
  simp only [List.contains, List.elem_iff, mem_existingTruncationIds, List.any_eq_true,
    Bool.and_eq_true, beq_iff_eq]

/-- The component's inline superseded test agrees with the spec's wording. -/
theorem supersededCode_eq_spec (msgs : List Message) (m : Message) :
    supersededCode msgs m = supersededSpec msgs m := by
  unfold supersededCode supersededSpec
  cases jsTruthy m.condenseParent <;> cases jsTruthy m.truncationParent <;>
    simp only [contains_existingSummaryIds, contains_existingTruncationIds]

/-- **C1** — CondensationReachability filtering: with the toggle on, the
filtered sequence consists exactly of the non-superseded messages, where a
message is superseded iff its `condenseParent` names the `condenseId` of a
present summary marker or its `truncationParent` names the `truncationId` of a
present truncation marker (single hop); with the toggle off the sequence is
returned unchanged.  On `[A, B(condenseParent=S1), S1(isSummary,
condenseId=S1)]`, filtering on yields `[A, S1]` with hidden count 1 and
filtering off yields all three messages. -/
theorem condensation_filtering_spec :
    (∀ msgs : List Message,
        filteredMessages true msgs = msgs.filter (fun m => !supersededSpec msgs m) ∧
        filteredMessages false msgs = msgs) ∧
    filteredMessages true [exMsgA, exMsgB, exMsgS1] = [exMsgA, exMsgS1] ∧
    hiddenCount [exMsgA, exMsgB, exMsgS1] = 1 ∧
    filteredMessages false [exMsgA, exMsgB, exMsgS1] = [exMsgA, exMsgB, exMsgS1] := by
  refine ⟨fun msgs => ⟨?_, rfl⟩, by decide, by decide, by decide⟩
  show msgs.filter (fun m => !supersededCode msgs m) = _
  simp only [supersededCode_eq_spec]

/-- Splitting a list by a predicate splits its length. -/
theorem length_filter_not_add_length_filter {α : Type} (p : α → Bool) (l : List α) :
    (l.filter (fun x => !p x)).length + (l.filter p).length = l.length := by
  induction l with
  | nil => rfl
  | cons a l ih =>
      by_cases h : p a = true <;> simp [List.filter_cons, h] <;> omega

/-- **C7** — the hidden count is the number of superseded messages of the full
unfiltered sequence, and it previews the toggle exactly: enabling the filter
removes exactly `hiddenCount` messages, disabling it removes none.  (In the
source `hiddenCount` is computed from the message list alone; the toggle is
not an input to it.) -/
theorem hiddenCount_spec (msgs : List Message) :
    hiddenCount msgs = (msgs.filter (fun m => supersededSpec msgs m)).length ∧
    (filteredMessages true msgs).length + hiddenCount msgs = msgs.length ∧
    (filteredMessages false msgs).length = msgs.length := by
  refine ⟨by unfold hiddenCount; simp only [supersededCode_eq_spec], ?_, rfl⟩
  show (msgs.filter (fun m => !supersededCode msgs m)).length + _ = _
  unfold hiddenCount
  exact length_filter_not_add_length_filter (fun m => supersededCode msgs m) msgs

/-- **C3 counterexample** — a summary marker that itself carries a
`condenseParent` naming a present marker id is dropped by the filter: with
`markerS2(isSummary, condenseId=S2, condenseParent=S1)` and
`markerS1(isSummary, condenseId=S1)`, filtering on drops `markerS2`. -/
theorem superseded_marker_dropped :
    markerS2.isSummary = true ∧ markerS2 ∈ [markerS2, markerS1] ∧
    markerS2 ∉ filteredMessages true [markerS2, markerS1] ∧
    filteredMessages true [markerS2, markerS1] = [markerS1] := by decide

/-- **C3 (amended)** — with filtering enabled, a marker message that is not
itself superseded (its `condenseParent`/`truncationParent`, if any, names no
marker id present in the sequence) is never dropped from the filtered
sequence. -/
theorem marker_kept_of_not_superseded (msgs : List Message) (m : Message)
    (hmem : m ∈ msgs) (_hmark : m.isSummary = true ∨ m.isTruncationMarker = true)
    (hns : supersededSpec msgs m = false) :
    m ∈ filteredMessages true msgs := by
  show m ∈ msgs.filter (fun x => !supersededCode msgs x)
  refine List.mem_filter.mpr ⟨hmem, ?_⟩
  rw [supersededCode_eq_spec, hns]
  rfl

/-- Witness for the amended C3 at a concrete input. -/
theorem marker_kept_of_not_superseded_witness :
    markerS1 ∈ [markerS1] ∧ (markerS1.isSummary = true ∨ markerS1.isTruncationMarker = true) ∧
    supersededSpec [markerS1] markerS1 = false ∧
    markerS1 ∈ filteredMessages true [markerS1] :=
  ⟨by decide, Or.inl (by decide), by decide,
    marker_kept_of_not_superseded [markerS1] markerS1 (by decide) (Or.inl (by decide))
      (by decide)⟩

/-- **C9** — ContentNormalizer is total (a Lean function without error
monad): a string yields exactly one text block carrying that exact string, an
array is returned unchanged, and any other value yields exactly one text
block carrying its stringification. -/
theorem normalizeContent_total_spec :
    (∀ s, normalizeContent (.str s) = [{ type := "text", text := some s }]) ∧
    (∀ bs, normalizeContent (.blocks bs) = bs) ∧
    (∀ s, normalizeContent (.other s) = [{ type := "text", text := some s }]) :=
  ⟨fun _ => rfl, fun _ => rfl, fun _ => rfl⟩

/-- **C8** — a background poll tick whose fetch throws (`netError`) or
returns a non-success status (`httpError`) leaves the whole client state —
held conversation, held task list, and the error field — unchanged, for both
the conversation loop and the task-list loop. -/
theorem backgroundPoll_preserves_state (s : AppState) :
    convPollTick s .httpError = s ∧ convPollTick s .netError = s ∧
    tasksPollTick s .httpError = s ∧ tasksPollTick s .netError = s :=
  ⟨rfl, rfl, rfl, rfl⟩

/-- **C5 (code bug)** — a stale response overwrites the newly selected task's
conversation: after selecting `X`, switching to `Y` and loading `Y`'s
conversation, the arrival of a poll response issued for `X` replaces the held
conversation with `X`'s body while `Y` is still selected.  The handlers apply
`setConversation(data)` unconditionally; the inline comment in
`loadConversation` ("Only set if this is still the selected task") describes a
check that is absent from the code. -/
theorem stale_response_overwrites :
    (runEvents {} staleTracePrefix).selectedTask = some "Y" ∧
    (runEvents {} staleTracePrefix).conversation = some staleBodyY ∧
    (runEvents {} staleTrace).selectedTask = some "Y" ∧
    (runEvents {} staleTrace).conversation = some staleBodyX ∧
    staleBodyX ≠ staleBodyY := by decide

/-! ### Reconciler lemmas -/

/-- The descending-timestamp relation underlying the sort is total. -/
instance : IsTotal TaskInfo (fun a b => b.timestamp ≤ a.timestamp) :=
  ⟨fun a b => le_total b.timestamp a.timestamp⟩

/-- The descending-timestamp relation underlying the sort is transitive. -/
instance : IsTrans TaskInfo (fun a b => b.timestamp ≤ a.timestamp) :=
  ⟨fun _ _ _ h1 h2 => le_trans h2 h1⟩

/-- Updating a task's timestamp does not change its id. -/
theorem updateFromIncoming_id (data : List TaskInfo) (c : TaskInfo) :
    (updateFromIncoming data c).id = c.id := by
  unfold updateFromIncoming
  cases data.find? (fun t => t.id == c.id) <;> rfl

/-- Updating a task's timestamp does not change its first message. -/
theorem updateFromIncoming_firstMessage (data : List TaskInfo) (c : TaskInfo) :
    (updateFromIncoming data c).firstMessage = c.firstMessage := by
  unfold updateFromIncoming
  cases data.find? (fun t => t.id == c.id) <;> rfl

/-- The per-task timestamp update is idempotent. -/
theorem updateFromIncoming_idem (data : List TaskInfo) (c : TaskInfo) :
    updateFromIncoming data (updateFromIncoming data c) = updateFromIncoming data c := by
  cases hfind : data.find? (fun t => t.id == c.id) with
  | none =>
      have h1 : updateFromIncoming data c = c := by
        unfold updateFromIncoming; rw [hfind]
      rw [h1, h1]
  | some u =>
      have h1 : updateFromIncoming data c = { c with timestamp := u.timestamp } := by
        unfold updateFromIncoming; rw [hfind]
      rw [h1]
      show updateFromIncoming data { c with timestamp := u.timestamp } = _
      unfold updateFromIncoming
      have hid : (fun t : TaskInfo => t.id == ({ c with timestamp := u.timestamp } : TaskInfo).id)
          = (fun t : TaskInfo => t.id == c.id) := rfl
      rw [hid, hfind]

/-- Membership of an id in the projected id list, as an `any`. -/
theorem contains_map_id (l : List TaskInfo) (x : String) :
    (l.map (fun t => t.id)).contains x = l.any (fun c => c.id == x) := by
  rw [Bool.eq_iff_iff]
  simp only [List.contains, List.elem_iff, List.mem_map, List.any_eq_true, beq_iff_eq]

/-- `reconcile`, branch by branch, in the spec's phrasing: when every incoming
id is already held, every held task keeps its id and first message and takes
the matching incoming timestamp; otherwise the genuinely new incoming tasks
are prepended unchanged to the whole held list; either result is stably
sorted descending by timestamp. -/
theorem reconcile_eq_branches (current incoming : List TaskInfo) :
    reconcile current incoming =
      if incoming.all (fun t => current.any (fun c => c.id == t.id)) then
        sortTasksDesc (current.map (updateFromIncoming incoming))
      else
        sortTasksDesc
          ((incoming.filter (fun t => !current.any (fun c => c.id == t.id))) ++ current) := by
  unfold reconcile
  have hpred : (fun t : TaskInfo => !(current.map (fun t => t.id)).contains t.id)
      = (fun t : TaskInfo => !current.any (fun c => c.id == t.id)) := by
    funext t
    rw [contains_map_id]
  simp only [hpred]
  have hcond : (incoming.filter (fun t => !current.any (fun c => c.id == t.id))).isEmpty
      = incoming.all (fun t => current.any (fun c => c.id == t.id)) := by
    rw [Bool.eq_iff_iff]
    simp only [List.isEmpty_iff, List.filter_eq_nil_iff, List.all_eq_true,
      Bool.not_eq_true', Bool.not_eq_true]
    constructor
    · intro h t ht
      have := h t ht
      simpa using this
    · intro h t ht
      simp [h t ht]
  rw [hcond]

/-- **C4** — TaskListReconciler merge: if every incoming id already occurs in
the held list, the result is the held tasks, ids and first messages
unchanged, timestamps taken from the matching incoming task when present,
stably sorted descending by timestamp; otherwise the new incoming tasks are
prepended unchanged to the whole held list and the combination is stably
sorted descending by timestamp.  In particular reconciling `[{id:1,ts:10}]`
with an empty poll yields `[{id:1,ts:10}]` unchanged. -/
theorem taskReconcile_merge_spec :
    (∀ current incoming : List TaskInfo,
        reconcile current incoming =
          if incoming.all (fun t => current.any (fun c => c.id == t.id)) then
            sortTasksDesc (current.map (updateFromIncoming incoming))
          else
            sortTasksDesc
              ((incoming.filter (fun t => !current.any (fun c => c.id == t.id))) ++ current)) ∧
    reconcile [⟨"1", 10, "m"⟩] [] = [⟨"1", 10, "m"⟩] :=
  ⟨reconcile_eq_branches, by decide⟩

/-- The counterexample lists for C6: one held task, a poll carrying one new
task and a newer timestamp for the held one. -/
def idemCur : List TaskInfo := [⟨"a", 10, "x"⟩]

/-- Incoming list of the C6 counterexample. -/
def idemInc : List TaskInfo := [⟨"b", 30, "y"⟩, ⟨"a", 20, "x"⟩]

/-- **C6 counterexample** — reconciliation is not idempotent: with a new task
in the poll the first application keeps the held task's old timestamp, the
second application then updates it, so the results differ. -/
theorem reconcile_not_idempotent :
    reconcile (reconcile idemCur idemInc) idemInc ≠ reconcile idemCur idemInc ∧
    reconcile idemCur idemInc = [⟨"b", 30, "y"⟩, ⟨"a", 10, "x"⟩] ∧
    reconcile (reconcile idemCur idemInc) idemInc = [⟨"b", 30, "y"⟩, ⟨"a", 20, "x"⟩] := by
  decide

/-- **C6 (amended)** — reconciliation is idempotent whenever the incoming
poll carries no new ids: if every incoming id already occurs in the held
list, applying the reconciliation twice with the identical incoming payload
produces the same held list as applying it once. -/
theorem reconcile_idempotent_of_known_ids (current incoming : List TaskInfo)
    (h : ∀ t ∈ incoming, current.any (fun c => c.id == t.id) = true) :
    reconcile (reconcile current incoming) incoming = reconcile current incoming := by
  have hall : incoming.all (fun t => current.any (fun c => c.id == t.id)) = true :=
    List.all_eq_true.mpr h
  have h1 : reconcile current incoming
      = sortTasksDesc (current.map (updateFromIncoming incoming)) := by
    rw [reconcile_eq_branches, if_pos hall]
  have hmem : ∀ x, x ∈ sortTasksDesc (current.map (updateFromIncoming incoming)) ↔
      x ∈ current.map (updateFromIncoming incoming) := by
    intro x
    exact List.mem_insertionSort _
  have hall2 : incoming.all (fun t =>
      (sortTasksDesc (current.map (updateFromIncoming incoming))).any
        (fun c => c.id == t.id)) = true := by
    rw [List.all_eq_true]
    intro t ht
    rw [List.any_eq_true]
    obtain ⟨c, hc, hcid⟩ := List.any_eq_true.mp (h t ht)
    refine ⟨updateFromIncoming incoming c,
      (hmem _).mpr (List.mem_map_of_mem _ hc), ?_⟩
    rwa [updateFromIncoming_id]
  rw [h1, reconcile_eq_branches, if_pos hall2]
  have hfix : ∀ x ∈ sortTasksDesc (current.map (updateFromIncoming incoming)),
      updateFromIncoming incoming x = x := by
    intro x hx
    obtain ⟨c, _, hceq⟩ := List.mem_map.mp ((hmem x).mp hx)
    rw [← hceq]
    exact updateFromIncoming_idem incoming c
  rw [List.map_congr_left hfix, List.map_id']
  exact (List.sorted_insertionSort _ _).insertionSort_eq

/-- Witness for the amended C6 at a concrete input. -/
theorem reconcile_idempotent_of_known_ids_witness :
    (∀ t ∈ ([⟨"a", 20, "x"⟩] : List TaskInfo),
        ([⟨"a", 10, "x"⟩] : List TaskInfo).any (fun c => c.id == t.id) = true) ∧
    reconcile (reconcile [⟨"a", 10, "x"⟩] [⟨"a", 20, "x"⟩]) [⟨"a", 20, "x"⟩]
      = reconcile [⟨"a", 10, "x"⟩] [⟨"a", 20, "x"⟩] :=
  ⟨by decide, reconcile_idempotent_of_known_ids _ _ (by decide)⟩

/-- **C10** — id-set invariant of reconciliation: when the held and incoming
lists each have pairwise-distinct ids, the reconciled list's multiset of ids
is exactly the held ids together with the incoming ids absent from the held
list, each occurring exactly once. -/
theorem reconcile_ids_invariant (current incoming : List TaskInfo)
    (hc : (current.map (fun t => t.id)).Nodup)
    (hi : (incoming.map (fun t => t.id)).Nodup) :
    ((reconcile current incoming).map (fun t => t.id)).Perm
      (current.map (fun t => t.id) ++
        (incoming.filter (fun t => !current.any (fun c => c.id == t.id))).map
          (fun t => t.id)) ∧
    ((reconcile current incoming).map (fun t => t.id)).Nodup := by
  rw [reconcile_eq_branches]
  by_cases hall : incoming.all (fun t => current.any (fun c => c.id == t.id)) = true
  · rw [if_pos hall]
    have hnil : incoming.filter (fun t => !current.any (fun c => c.id == t.id)) = [] := by
      rw [List.filter_eq_nil_iff]
      intro t ht
      simp [List.all_eq_true.mp hall t ht]
    have hids : (current.map (updateFromIncoming incoming)).map (fun t => t.id)
        = current.map (fun t => t.id) := by
      rw [List.map_map]
      refine List.map_congr_left ?_
      intro c _
      exact updateFromIncoming_id incoming c
    have hperm : ((sortTasksDesc (current.map (updateFromIncoming incoming))).map
        (fun t => t.id)).Perm (current.map (fun t => t.id)) := by
      have h := (List.perm_insertionSort (fun a b : TaskInfo => b.timestamp ≤ a.timestamp)
        (current.map (updateFromIncoming incoming))).map (fun t => t.id)
      rwa [hids] at h
    rw [hnil]
    exact ⟨by simpa using hperm, hperm.nodup_iff.mpr hc⟩
  · rw [if_neg hall]
    have hperm : ((sortTasksDesc
        ((incoming.filter (fun t => !current.any (fun c => c.id == t.id))) ++ current)).map
          (fun t => t.id)).Perm
        (current.map (fun t => t.id) ++
          (incoming.filter (fun t => !current.any (fun c => c.id == t.id))).map
            (fun t => t.id)) := by
      refine ((List.perm_insertionSort _ _).map _).trans ?_
      rw [List.map_append]
      exact List.perm_append_comm
    refine ⟨hperm, ?_⟩
    rw [hperm.nodup_iff, List.nodup_append]
    refine ⟨hc, ?_, ?_⟩
    · have hsub : ((incoming.filter
          (fun t => !current.any (fun c => c.id == t.id))).map (fun t => t.id)).Sublist
          (incoming.map (fun t => t.id)) :=
        (List.filter_sublist incoming).map (fun t => t.id)
      exact hi.sublist hsub
    · intro a ha ha2
      obtain ⟨t, htmem, hteq⟩ := List.mem_map.mp ha2
      have hflt := List.of_mem_filter htmem
      rw [Bool.not_eq_true'] at hflt
      obtain ⟨c, hcmem, hceq⟩ := List.mem_map.mp ha
      have hany : current.any (fun c => c.id == t.id) = true :=
        List.any_eq_true.mpr ⟨c, hcmem, beq_iff_eq.mpr (hceq.trans hteq.symm)⟩
      rw [hany] at hflt
      exact Bool.true_eq_false.mp hflt

/-- Witness for C10 at a concrete input. -/
theorem reconcile_ids_invariant_witness :
    (([⟨"a", 10, "x"⟩] : List TaskInfo).map (fun t => t.id)).Nodup ∧
    (([⟨"b", 30, "y"⟩, ⟨"a", 20, "x"⟩] : List TaskInfo).map (fun t => t.id)).Nodup ∧
    (((reconcile [⟨"a", 10, "x"⟩] [⟨"b", 30, "y"⟩, ⟨"a", 20, "x"⟩]).map
        (fun t => t.id)).Perm
      (([⟨"a", 10, "x"⟩] : List TaskInfo).map (fun t => t.id) ++
        (([⟨"b", 30, "y"⟩, ⟨"a", 20, "x"⟩] : List TaskInfo).filter
          (fun t => !([⟨"a", 10, "x"⟩] : List TaskInfo).any (fun c => c.id == t.id))).map
            (fun t => t.id)) ∧
      ((reconcile [⟨"a", 10, "x"⟩] [⟨"b", 30, "y"⟩, ⟨"a", 20, "x"⟩]).map
        (fun t => t.id)).Nodup) :=
  ⟨by decide, by decide, reconcile_ids_invariant _ _ (by decide) (by decide)⟩

/-! ### Tool-pairing lemmas -/

/-- Membership in the JavaScript-set insertion. -/
theorem mem_addResultId {ids : List String} {t a : String} :
    a ∈ addResultId ids t ↔ a ∈ ids ∨ a = t := by
  unfold addResultId
  by_cases h : ids.contains t = true
  · rw [if_pos h]
    have ht : t ∈ ids := by simpa [List.contains, List.elem_iff] using h
    constructor
    · exact Or.inl
    · rintro (ha | rfl)
      · exact ha
      · exact ht
  · rw [if_neg h]
    simp [List.mem_append]

/-- Lookup after a last-write-wins insertion. -/
theorem lookup_setPosition (tid tid2 : String) (v : Nat × Nat) :
    ∀ ps : List (String × Nat × Nat),
      lookupPos (setPosition ps tid v) tid2 =
        if tid2 = tid then some v else lookupPos ps tid2 := by
  intro ps
  induction ps with
  | nil =>
      by_cases h : tid2 = tid
      · subst h; simp [setPosition, lookupPos]
      · simp [setPosition, lookupPos, h, Ne.symm h]
  | cons p rest ih =>
      obtain ⟨k, w⟩ := p
      unfold setPosition
      by_cases hk : k = tid
      · subst hk
        by_cases h2 : tid2 = k
        · subst h2; simp [lookupPos]
        · simp [lookupPos, h2, Ne.symm h2]
      · by_cases h2 : tid2 = k
        · subst h2
          simp [lookupPos, hk]
        · simp [lookupPos, hk, Ne.symm h2, ih]

/-- The first component of the block step, projected. -/
theorem scanBlock_toolResultIds (mi bi : Nat) (acc : ScanAcc) (b : ContentBlock) :
    (scanBlock mi bi acc b).toolResultIds =
      match jsTruthy b.tool_use_id with
      | some t =>
          if b.type = "tool_result" then addResultId acc.toolResultIds t
          else acc.toolResultIds
      | none => acc.toolResultIds := by
  unfold scanBlock
  cases jsTruthy b.tool_use_id <;> cases jsTruthy b.id <;>
    dsimp only [] <;> (try split) <;> (try split) <;> rfl

/-- The second component of the block step, projected. -/
theorem scanBlock_toolUsePositions (mi bi : Nat) (acc : ScanAcc) (b : ContentBlock) :
    (scanBlock mi bi acc b).toolUsePositions =
      match jsTruthy b.id with
      | some t =>
          if b.type = "tool_use" then setPosition acc.toolUsePositions t (mi, bi)
          else acc.toolUsePositions
      | none => acc.toolUsePositions := by
  unfold scanBlock
  cases jsTruthy b.tool_use_id <;> cases jsTruthy b.id <;>
    dsimp only [] <;> (try split) <;> (try split) <;> rfl

/-- Membership in the answered-id set after one block. -/
theorem mem_scanBlock_toolResultIds (mi bi : Nat) (acc : ScanAcc) (b : ContentBlock)
    (a : String) :
    a ∈ (scanBlock mi bi acc b).toolResultIds ↔
      a ∈ acc.toolResultIds ∨ isToolResultFor a b = true := by
  rw [scanBlock_toolResultIds]
  unfold isToolResultFor
  cases htu : jsTruthy b.tool_use_id with
  | none => simp
  | some t =>
      dsimp only []
      by_cases h1 : b.type = "tool_result"
      · rw [if_pos h1, mem_addResultId]
        simp only [h1, decide_True, Bool.true_and, beq_iff_eq, Option.some.injEq]
        constructor
        · rintro (h | h)
          · exact Or.inl h
          · exact Or.inr h.symm
        · rintro (h | h)
          · exact Or.inl h
          · exact Or.inr h.symm
      · rw [if_neg h1]
        simp [h1]

/-- Lookup in the position map after one block. -/
theorem lookup_scanBlock (mi bi : Nat) (acc : ScanAcc) (b : ContentBlock) (tid : String) :
    lookupPos (scanBlock mi bi acc b).toolUsePositions tid =
      if isToolUseFor tid b then some (mi, bi)
      else lookupPos acc.toolUsePositions tid := by
  rw [scanBlock_toolUsePositions]
  unfold isToolUseFor
  cases hid : jsTruthy b.id with
  | none => simp
  | some t =>
      dsimp only []
      by_cases h2 : b.type = "tool_use"
      · rw [if_pos h2, lookup_setPosition]
        by_cases he : tid = t
        · subst he; simp [h2]
        · simp [h2, he, Ne.symm he]
      · rw [if_neg h2]
        simp [h2]

/-- Membership in the answered-id set after one message's blocks. -/
theorem mem_scanBlocks_toolResultIds (mi : Nat) (a : String) :
    ∀ (blocks : List ContentBlock) (bi : Nat) (acc : ScanAcc),
      a ∈ (scanBlocks mi bi acc blocks).toolResultIds ↔
        a ∈ acc.toolResultIds ∨ blocks.any (isToolResultFor a) = true := by
  intro blocks
  induction blocks with
  | nil =>
      intro bi acc
      simp [scanBlocks]
  | cons b rest ih =>
      intro bi acc
      show a ∈ (scanBlocks mi (bi + 1) (scanBlock mi bi acc b) rest).toolResultIds ↔ _
      rw [ih, mem_scanBlock_toolResultIds]
      simp [List.any_cons, Bool.or_eq_true, or_assoc]

/-- Membership in the answered-id set after the whole scan. -/
theorem mem_scanMessages_toolResultIds (a : String) :
    ∀ (msgs : List Message) (mi : Nat) (acc : ScanAcc),
      a ∈ (scanMessages mi acc msgs).toolResultIds ↔
        a ∈ acc.toolResultIds ∨ msgs.any (msgHasToolResult a) = true := by
  intro msgs
  induction msgs with
  | nil =>
      intro mi acc
      simp [scanMessages]
  | cons m rest ih =>
      intro mi acc
      show a ∈ (scanMessages (mi + 1)
        (scanBlocks mi 0 acc (normalizeContent m.content)) rest).toolResultIds ↔ _
      rw [ih, mem_scanBlocks_toolResultIds]
      simp [List.any_cons, Bool.or_eq_true, or_assoc, msgHasToolResult]

/-- Keys after a last-write-wins insertion. -/
theorem keys_setPosition (tid : String) (v : Nat × Nat) :
    ∀ ps : List (String × Nat × Nat),
      (setPosition ps tid v).map (fun p => p.1) =
        if tid ∈ ps.map (fun p => p.1) then ps.map (fun p => p.1)
        else ps.map (fun p => p.1) ++ [tid] := by
  intro ps
  induction ps with
  | nil => simp [setPosition]
  | cons p rest ih =>
      obtain ⟨k, w⟩ := p
      unfold setPosition
      by_cases hk : k = tid
      · subst hk
        simp
      · by_cases hm : tid ∈ rest.map (fun p => p.1) <;>
          simp [hk, Ne.symm hk, hm, ih]

/-- A last-write-wins insertion preserves duplicate-freedom of the keys. -/
theorem nodup_keys_setPosition {ps : List (String × Nat × Nat)}
    (h : (ps.map (fun p => p.1)).Nodup) (tid : String) (v : Nat × Nat) :
    ((setPosition ps tid v).map (fun p => p.1)).Nodup := by
  rw [keys_setPosition]
  by_cases hm : tid ∈ ps.map (fun p => p.1)
  · rwa [if_pos hm]
  · rw [if_neg hm]
    refine List.nodup_append.mpr ⟨h, List.nodup_singleton tid, ?_⟩
    intro a ha hb
    rw [List.mem_singleton] at hb
    subst hb
    exact hm ha

/-- One block step preserves duplicate-freedom of the position keys. -/
theorem nodup_keys_scanBlock (mi bi : Nat) (acc : ScanAcc) (b : ContentBlock)
    (h : (acc.toolUsePositions.map (fun p => p.1)).Nodup) :
    ((scanBlock mi bi acc b).toolUsePositions.map (fun p => p.1)).Nodup := by
  rw [scanBlock_toolUsePositions]
  cases jsTruthy b.id with
  | none => exact h
  | some t =>
      dsimp only []
      by_cases h2 : b.type = "tool_use"
      · rw [if_pos h2]
        exact nodup_keys_setPosition h t (mi, bi)
      · rwa [if_neg h2]

/-- One message's blocks preserve duplicate-freedom of the position keys. -/
theorem nodup_keys_scanBlocks (mi : Nat) :
    ∀ (blocks : List ContentBlock) (bi : Nat) (acc : ScanAcc),
      (acc.toolUsePositions.map (fun p => p.1)).Nodup →
      ((scanBlocks mi bi acc blocks).toolUsePositions.map (fun p => p.1)).Nodup
  | [], _, _, h => h
  | b :: rest, bi, acc, h =>
      nodup_keys_scanBlocks mi rest (bi + 1) (scanBlock mi bi acc b)
        (nodup_keys_scanBlock mi bi acc b h)

/-- The whole scan keeps the position keys duplicate-free. -/
theorem nodup_keys_scanMessages :
    ∀ (msgs : List Message) (mi : Nat) (acc : ScanAcc),
      (acc.toolUsePositions.map (fun p => p.1)).Nodup →
      ((scanMessages mi acc msgs).toolUsePositions.map (fun p => p.1)).Nodup
  | [], _, _, h => h
  | m :: rest, mi, acc, h =>
      nodup_keys_scanMessages rest (mi + 1) (scanBlocks mi 0 acc (normalizeContent m.content))
        (nodup_keys_scanBlocks mi (normalizeContent m.content) 0 acc h)

/-- Lookup in the position map after one message's blocks: a block carrying a
`tool_use` for `tid` pins the message index to `mi`; otherwise the map is
unchanged at `tid`. -/
theorem lookup_scanBlocks (mi : Nat) (tid : String) :
    ∀ (blocks : List ContentBlock) (bi : Nat) (acc : ScanAcc),
      (blocks.any (isToolUseFor tid) = true →
        ∃ bj, lookupPos (scanBlocks mi bi acc blocks).toolUsePositions tid = some (mi, bj)) ∧
      (blocks.any (isToolUseFor tid) = false →
        lookupPos (scanBlocks mi bi acc blocks).toolUsePositions tid =
          lookupPos acc.toolUsePositions tid) := by
  intro blocks
  induction blocks with
  | nil =>
      intro bi acc
      exact ⟨fun h => by simp at h, fun _ => rfl⟩
  | cons b rest ih =>
      intro bi acc
      constructor
      · intro h
        cases hrest : rest.any (isToolUseFor tid) with
        | true => exact (ih (bi + 1) (scanBlock mi bi acc b)).1 hrest
        | false =>
            have hb : isToolUseFor tid b = true := by
              rw [List.any_cons, hrest, Bool.or_false] at h
              exact h
            have h2 := (ih (bi + 1) (scanBlock mi bi acc b)).2 hrest
            refine ⟨bi, ?_⟩
            show lookupPos (scanBlocks mi (bi + 1) (scanBlock mi bi acc b) rest).toolUsePositions
              tid = some (mi, bi)
            rw [h2, lookup_scanBlock, if_pos hb]
      · intro h
        rw [List.any_cons, Bool.or_eq_false_iff] at h
        obtain ⟨hb, hrest⟩ := h
        show lookupPos (scanBlocks mi (bi + 1) (scanBlock mi bi acc b) rest).toolUsePositions
          tid = lookupPos acc.toolUsePositions tid
        rw [(ih (bi + 1) (scanBlock mi bi acc b)).2 hrest, lookup_scanBlock, hb]
        simp

/-- Lookup in the position map after the whole scan: the tracked message
index of `tid` is `mi` plus the index of the last message with a `tool_use`
for `tid`; when no message carries one the map is unchanged at `tid`. -/
theorem lookup_scanMessages (tid : String) :
    ∀ (msgs : List Message) (mi : Nat) (acc : ScanAcc),
      (∀ i, lastToolUseMsgIdx tid msgs = some i →
        ∃ bj, lookupPos (scanMessages mi acc msgs).toolUsePositions tid = some (mi + i, bj)) ∧
      (lastToolUseMsgIdx tid msgs = none →
        lookupPos (scanMessages mi acc msgs).toolUsePositions tid =
          lookupPos acc.toolUsePositions tid) := by
  intro msgs
  induction msgs with
  | nil =>
      intro mi acc
      exact ⟨fun i h => by simp [lastToolUseMsgIdx] at h, fun _ => rfl⟩
  | cons m rest ih =>
      intro mi acc
      constructor
      · intro i h
        unfold lastToolUseMsgIdx at h
        cases hrest : lastToolUseMsgIdx tid rest with
        | some j =>
            rw [hrest] at h
            dsimp only [] at h
            injection h with h
            obtain ⟨bj, hbj⟩ :=
              (ih (mi + 1) (scanBlocks mi 0 acc (normalizeContent m.content))).1 j hrest
            refine ⟨bj, ?_⟩
            show lookupPos (scanMessages (mi + 1)
              (scanBlocks mi 0 acc (normalizeContent m.content)) rest).toolUsePositions tid
              = some (mi + i, bj)
            rw [hbj]
            have harith : mi + 1 + j = mi + i := by omega
            rw [harith]
        | none =>
            rw [hrest] at h
            dsimp only [] at h
            by_cases hm : msgHasToolUse tid m = true
            · rw [if_pos hm] at h
              injection h with h
              have h2 := (ih (mi + 1) (scanBlocks mi 0 acc (normalizeContent m.content))).2 hrest
              obtain ⟨bj, hbj⟩ :=
                (lookup_scanBlocks mi tid (normalizeContent m.content) 0 acc).1 hm
              refine ⟨bj, ?_⟩
              show lookupPos (scanMessages (mi + 1)
                (scanBlocks mi 0 acc (normalizeContent m.content)) rest).toolUsePositions tid
                = some (mi + i, bj)
              rw [h2, hbj]
              have harith : mi = mi + i := by omega
              rw [← harith]
            · rw [if_neg hm] at h
              exact absurd h (by simp)
      · intro h
        unfold lastToolUseMsgIdx at h
        cases hrest : lastToolUseMsgIdx tid rest with
        | some j =>
            rw [hrest] at h
            dsimp only [] at h
            exact absurd h (by simp)
        | none =>
            rw [hrest] at h
            dsimp only [] at h
            by_cases hm : msgHasToolUse tid m = true
            · rw [if_pos hm] at h
              exact absurd h (by simp)
            · have hmf : msgHasToolUse tid m = false := by
                cases hx : msgHasToolUse tid m
                · rfl
                · exact absurd hx hm
              have h2 := (ih (mi + 1) (scanBlocks mi 0 acc (normalizeContent m.content))).2 hrest
              have h3 := (lookup_scanBlocks mi tid (normalizeContent m.content) 0 acc).2 hmf
              show lookupPos (scanMessages (mi + 1)
                (scanBlocks mi 0 acc (normalizeContent m.content)) rest).toolUsePositions tid
                = lookupPos acc.toolUsePositions tid
              rw [h2, h3]

/-- No tracked index iff no message carries a `tool_use` for `tid`. -/
theorem lastToolUseMsgIdx_eq_none (tid : String) :
    ∀ msgs : List Message,
      lastToolUseMsgIdx tid msgs = none ↔ msgs.any (msgHasToolUse tid) = false := by
  intro msgs
  induction msgs with
  | nil => simp [lastToolUseMsgIdx]
  | cons m rest ih =>
      unfold lastToolUseMsgIdx
      cases hrest : lastToolUseMsgIdx tid rest with
      | some j =>
          have hany : rest.any (msgHasToolUse tid) = true := by
            cases hx : rest.any (msgHasToolUse tid)
            · exact absurd hrest (by rw [ih.mpr hx]; simp)
            · rfl
          simp [List.any_cons, hany]
      | none =>
          have hany : rest.any (msgHasToolUse tid) = false := ih.mp hrest
          by_cases hm : msgHasToolUse tid m = true <;>
            simp [List.any_cons, hany, hm]

/-- A successful lookup is a member of the association list. -/
theorem lookupPos_eq_some_mem {tid : String} {v : Nat × Nat} :
    ∀ {ps : List (String × Nat × Nat)}, lookupPos ps tid = some v → (tid, v) ∈ ps := by
  intro ps
  induction ps with
  | nil => intro h; simp [lookupPos] at h
  | cons p rest ih =>
      intro h
      obtain ⟨k, w⟩ := p
      unfold lookupPos at h
      by_cases hk : k = tid
      · rw [if_pos hk] at h
        injection h with h
        subst hk
        subst h
        exact List.mem_cons_self _ _
      · rw [if_neg hk] at h
        exact List.mem_cons_of_mem _ (ih h)

/-- With duplicate-free keys, a member is found by lookup. -/
theorem mem_lookupPos_of_nodup {tid : String} {v : Nat × Nat} :
    ∀ {ps : List (String × Nat × Nat)},
      (ps.map (fun p => p.1)).Nodup → (tid, v) ∈ ps → lookupPos ps tid = some v := by
  intro ps
  induction ps with
  | nil => intro _ h; simp at h
  | cons p rest ih =>
      intro hnd h
      obtain ⟨k, w⟩ := p
      rw [List.map_cons, List.nodup_cons] at hnd
      obtain ⟨hknot, hnd2⟩ := hnd
      rcases List.mem_cons.mp h with heq | hmem
      · have h1 : tid = k := congrArg Prod.fst heq
        have h2 : v = w := congrArg Prod.snd heq
        unfold lookupPos
        rw [if_pos h1.symm, h2]
      · have hne : k ≠ tid := by
          intro hkt
          subst hkt
          exact hknot (List.mem_map.mpr ⟨(k, v), hmem, rfl⟩)
        unfold lookupPos
        rw [if_neg hne]
        exact ih hnd2 hmem

/-- **C2** — ToolPairingIndex characterization: `tid` is reported missing iff
some `tool_use` block carries it, no `tool_result` block anywhere carries it
as `tool_use_id`, and the message of its tracked occurrence — the last one,
since duplicates are tolerated with last write winning — is not the last
message of the conversation. -/
theorem toolPairing_missing_iff (msgs : List Message) (tid : String) :
    tid ∈ toolUsesMissingResults msgs ↔
      ((∃ m ∈ msgs, msgHasToolUse tid m = true) ∧
       (∀ m ∈ msgs, msgHasToolResult tid m = false) ∧
       (∃ i, lastToolUseMsgIdx tid msgs = some i ∧ i + 1 < msgs.length)) := by
  show tid ∈ (((scanMessages 0 { toolResultIds := [], toolUsePositions := [] } msgs
      ).toolUsePositions.filter
      (fun p => !(scanMessages 0 { toolResultIds := [], toolUsePositions := [] } msgs
        ).toolResultIds.contains p.1 && decide (p.2.1 < msgs.length - 1))).map
      (fun p => p.1)) ↔ _
  set A := scanMessages 0 { toolResultIds := [], toolUsePositions := [] } msgs with hA
  have hnd : (A.toolUsePositions.map (fun p => p.1)).Nodup := by
    rw [hA]
    exact nodup_keys_scanMessages msgs 0 _ (by simp)
  have hres_iff : ∀ a, a ∈ A.toolResultIds ↔ msgs.any (msgHasToolResult a) = true := by
    intro a
    rw [hA, mem_scanMessages_toolResultIds]
    simp
  constructor
  · intro hmem0
    obtain ⟨p, hpfilter, hpeq⟩ := List.mem_map.mp hmem0
    obtain ⟨hpmem, hpcond⟩ := List.mem_filter.mp hpfilter
    obtain ⟨k, v⟩ := p
    dsimp only [] at hpeq hpcond
    subst hpeq
    rw [Bool.and_eq_true] at hpcond
    obtain ⟨hres, hlt⟩ := hpcond
    rw [Bool.not_eq_true'] at hres
    rw [decide_eq_true_eq] at hlt
    have hlkA : lookupPos A.toolUsePositions k = some v := mem_lookupPos_of_nodup hnd hpmem
    cases hlast : lastToolUseMsgIdx k msgs with
    | none =>
        have h0 := (lookup_scanMessages k msgs 0
          { toolResultIds := [], toolUsePositions := [] }).2 hlast
        rw [← hA] at h0
        rw [h0] at hlkA
        simp [lookupPos] at hlkA
    | some i =>
        obtain ⟨bj, hbj⟩ := (lookup_scanMessages k msgs 0
          { toolResultIds := [], toolUsePositions := [] }).1 i hlast
        rw [← hA] at hbj
        rw [hlkA] at hbj
        injection hbj with hbj
        refine ⟨?_, ?_, i, rfl, ?_⟩
        · have hne : msgs.any (msgHasToolUse k) = true := by
            cases hx : msgs.any (msgHasToolUse k)
            · have hnone := (lastToolUseMsgIdx_eq_none k msgs).mpr hx
              rw [hnone] at hlast
              exact absurd hlast (by simp)
            · rfl
          obtain ⟨m, hm1, hm2⟩ := List.any_eq_true.mp hne
          exact ⟨m, hm1, hm2⟩
        · intro m hm
          cases hx : msgHasToolResult k m
          · rfl
          · have hmemr : k ∈ A.toolResultIds :=
              (hres_iff k).mpr (List.any_eq_true.mpr ⟨m, hm, hx⟩)
            have hcontk : A.toolResultIds.contains k = true := by
              simpa [List.contains, List.elem_iff] using hmemr
            rw [hcontk] at hres
            exact absurd hres (by simp)
        · have hv1 : v.1 = 0 + i := by rw [hbj]
          omega
  · rintro ⟨⟨m, hmmem, hmuse⟩, hnores, i, hlast, hlen⟩
    obtain ⟨bj, hbj⟩ := (lookup_scanMessages tid msgs 0
      { toolResultIds := [], toolUsePositions := [] }).1 i hlast
    rw [← hA] at hbj
    have hp : (tid, (0 + i, bj)) ∈ A.toolUsePositions := lookupPos_eq_some_mem hbj
    refine List.mem_map.mpr ⟨(tid, (0 + i, bj)), List.mem_filter.mpr ⟨hp, ?_⟩, rfl⟩
    dsimp only []
    rw [Bool.and_eq_true]
    refine ⟨?_, ?_⟩
    · rw [Bool.not_eq_true']
      cases hx : A.toolResultIds.contains tid
      · rfl
      · have hmemr : tid ∈ A.toolResultIds := by
          simpa [List.contains, List.elem_iff] using hx
        have hany := (hres_iff tid).mp hmemr
        obtain ⟨m2, hm2, hx2⟩ := List.any_eq_true.mp hany
        rw [hnores m2 hm2] at hx2
        exact absurd hx2 (by simp)
    · rw [decide_eq_true_eq]
      show 0 + i < msgs.length - 1
      omega
